import Mathlib

/-!
Verification of `swift/obj/encryptor.py` (encryption drivers for an object
storage server).  Python 2 byte strings are modelled as lists of natural
numbers, the configuration dictionary as an association list, raised
exceptions as an `Except` error component, and Python `None` results as
`Option.none`.  The external M2Crypto `EVP.Cipher` primitive (AES-128-CBC)
is modelled from the specification: CBC mode with PKCS#7 padding over an
abstract 16-byte block permutation supplied as a parameter.
-/

namespace SwiftEncrypt

/-- Python 2 `str` values used as byte strings: lists of byte values. -/
abbrev Bytes := List Nat

/-- The bytes of an ASCII string literal, as a Python 2 `str`. -/
def strBytes (s : String) : Bytes := s.data.map Char.toNat

/-- The application configuration dictionary (only string values occur). -/
abbrev Conf := List (String × String)

/-- Python `conf.get(key)`: `none` models Python `None` for an absent key. -/
def confGet (conf : Conf) (k : String) : Option String :=
  (conf.find? (fun kv => kv.1 == k)).map (fun kv => kv.2)

/-- Python `conf.get(key, default)`. -/
def confGetD (conf : Conf) (k dflt : String) : String :=
  (confGet conf k).getD dflt

/-- Python exceptions raised by the code in `encryptor.py`:
`ValueError` (re-raised by `crypt`/`decrypt`) and `NotImplementedError`
(raised by `M2CryptoDriver.__init__` for an incorrect protocol). -/
inductive PyErr
  | valueError (msg : String)
  | notImplementedError (msg : String)
deriving DecidableEq

/-- Modelled from the spec: failures of the external M2Crypto `EVP` layer.
`Cipher.__init__` raises `ValueError('unknown cipher', alg)` for an
unsupported algorithm name; `cipher.final()` raises `EVPError` (a
`ValueError` subclass) when CBC padding validation fails on decryption.
Both are therefore caught by `except ValueError` in the driver. -/
inductive M2Err
  | unknownCipher (alg : String)
  | evpError (msg : String)
deriving DecidableEq

/-- Python `error[0]` (first exception argument) for the modelled
M2Crypto errors: `'unknown cipher'` for the constructor failure, the
diagnostic message for an `EVPError`. -/
def M2Err.arg0 : M2Err → String
  | .unknownCipher _ => "unknown cipher"
  | .evpError msg => msg

/-- Python `error[1]` (second exception argument): the algorithm name for
`ValueError('unknown cipher', alg)`.  Reading `error[1]` on an `EVPError`
would itself fail in Python; the driver only reads it after checking
`error[0] == 'unknown cipher'`, so that case is unreachable there. -/
def M2Err.arg1 : M2Err → String
  | .unknownCipher alg => alg
  | .evpError _ => ""

/-- An abstract 16-byte block permutation: key bytes and a block to its
image block.  Stands for the external AES-128 block function (encryption
direction) or its inverse (decryption direction). -/
abbrev BlockFun := Bytes → Bytes → Bytes

/-- Bytewise XOR of two byte strings (CBC chaining). -/
def xorB (a b : Bytes) : Bytes := List.zipWith (fun x y => x ^^^ y) a b

/-- Split a byte string into consecutive 16-byte chunks; `fuel` bounds the
recursion (callers pass the length of the list, so the fallback case for
exhausted fuel on a non-empty list is never reached). -/
def chunk16Go : Nat → Bytes → List Bytes
  | _, [] => []
  | 0, x :: xs => [x :: xs]
  | fuel + 1, x :: xs => (x :: xs).take 16 :: chunk16Go fuel ((x :: xs).drop 16)

/-- Split a byte string into consecutive 16-byte chunks (the final chunk is
shorter when the length is not a multiple of 16). -/
def chunk16 (l : Bytes) : List Bytes := chunk16Go l.length l

/-- Modelled from the spec: PKCS#7 padding applied by the external cipher
when finalising encryption — always appends between 1 and 16 bytes, each
equal to the count of appended bytes, reaching a multiple of 16. -/
def pkcs7pad (p : Bytes) : Bytes :=
  p ++ List.replicate (16 - p.length % 16) (16 - p.length % 16)

/-- Modelled from the spec: PKCS#7 padding validation and removal applied
by the external cipher when finalising decryption; `none` models the
padding-check failure (`EVPError` from `cipher.final()`). -/
def pkcs7unpad (c : Bytes) : Option Bytes :=
  match c.getLast? with
  | none => none
  | some m =>
      if 1 ≤ m ∧ m ≤ 16 ∧ m ≤ c.length ∧
          ((c.drop (c.length - m)).all (fun x => x == m) = true) then
        some (c.take (c.length - m))
      else none

/-- CBC chaining in encryption direction over a list of 16-byte blocks:
each plaintext block is XORed with the previous ciphertext block (the IV
for the first) and passed through the block permutation. -/
def cbcEncBlocks (E : BlockFun) (key : Bytes) : Bytes → List Bytes → List Bytes
  | _, [] => []
  | prev, b :: bs =>
      E key (xorB prev b) :: cbcEncBlocks E key (E key (xorB prev b)) bs

/-- CBC chaining in decryption direction over a list of 16-byte blocks. -/
def cbcDecBlocks (D : BlockFun) (key : Bytes) : Bytes → List Bytes → List Bytes
  | _, [] => []
  | prev, c :: cs => xorB prev (D key c) :: cbcDecBlocks D key c cs

/-- Modelled from the spec: complete output of `cipher.update(chunk)`
followed by `cipher.final()` for an M2Crypto CBC cipher in encryption mode
(`op=1`): pad to a block multiple, then CBC-encrypt every block. -/
def m2cbcEncrypt (E : BlockFun) (key iv p : Bytes) : Bytes :=
  (cbcEncBlocks E key iv (chunk16 (pkcs7pad p))).flatten

/-- Modelled from the spec: complete output of `cipher.update(chunk)`
followed by `cipher.final()` for an M2Crypto CBC cipher in decryption mode
(`op=0`): CBC-decrypt every block then validate and strip the padding.
`none` models the `EVPError` raised by `final()` when the input is not a
positive multiple of the block size or the padding check fails. -/
def m2cbcDecrypt (D : BlockFun) (key iv c : Bytes) : Option Bytes :=
  if c.length % 16 = 0 then
    pkcs7unpad (cbcDecBlocks D key iv (chunk16 c)).flatten
  else none

/-- Modelled from the spec: the body of the `try` block of
`M2CryptoDriver.crypt` — construct `Cipher(alg, key, iv, op=1)`, feed the
chunk, finalise.  Only the single algorithm the driver can be constructed
with is supported; any other name fails at `Cipher.__init__` with
`ValueError('unknown cipher', alg)`.  The era-appropriate library performs
no key-length validation, so arbitrary key bytes (including the empty
default) are accepted. -/
def m2CipherEncrypt (E : BlockFun) (alg : String) (key iv chunk : Bytes) :
    Except M2Err Bytes :=
  if alg = "aes_128_cbc" then .ok (m2cbcEncrypt E key iv chunk)
  else .error (.unknownCipher alg)

/-- Modelled from the spec: the body of the `try` block of
`M2CryptoDriver.decrypt` — as `m2CipherEncrypt` but with `op=0`; a padding
failure in `cipher.final()` raises `EVPError('bad decrypt')`. -/
def m2CipherDecrypt (D : BlockFun) (alg : String) (key iv chunk : Bytes) :
    Except M2Err Bytes :=
  if alg = "aes_128_cbc" then
    match m2cbcDecrypt D key iv chunk with
    | some v => .ok v
    | none => .error (.evpError "bad decrypt")
  else .error (.unknownCipher alg)

/-- The hardcoded initial vector of `M2CryptoDriver.__init__`:
`self.iv = "3141527182810345"` (16 ASCII bytes). -/
def ivBytes : Bytes := strBytes "3141527182810345"

/-- State of an `M2CryptoDriver` instance: the fields assigned by
`CryptoDriver.__init__` and `M2CryptoDriver.__init__`.  The key-store
collaborator (`key_manager.get_driver(...)`) is external and is modelled
by its `get_key` behaviour, a function from key id to key bytes.
`key_value` is the class-attribute default `""` until `get_key_value`
overwrites it. -/
structure M2CryptoDriver where
  conf : Conf
  protocol : String
  keystore : String → Bytes
  iv : Bytes
  key_value : Bytes

/-- Construction of `M2CryptoDriver`: `CryptoDriver.__init__` stores the
configuration and obtains the key-store collaborator (here the parameter
`ks`), then `M2CryptoDriver.__init__` sets the hardcoded IV, reads
`crypto_protocol` with default `"aes_128_cbc"`, and raises
`NotImplementedError("Incorrect protocol")` for any other value. -/
def M2CryptoDriver.init (ks : String → Bytes) (conf : Conf) :
    Except PyErr M2CryptoDriver :=
  let protocol := confGetD conf "crypto_protocol" "aes_128_cbc"
  if protocol ≠ "aes_128_cbc" then
    .error (.notImplementedError "Incorrect protocol")
  else
    .ok { conf := conf, protocol := protocol, keystore := ks,
          iv := ivBytes, key_value := [] }

/-- `CryptoDriver.get_key_value`: `self.key_value =
self.keystore_driver.get_key(key_id)`.  The method body has no `return`
statement, so the call returns Python `None` (first component); the second
component is the updated instance state. -/
def M2CryptoDriver.get_key_value (d : M2CryptoDriver) (key_id : String) :
    Option Bytes × M2CryptoDriver :=
  (none, { d with key_value := d.keystore key_id })

/-- `M2CryptoDriver.crypt`.  The `try` block runs the cipher; on a caught
`ValueError` whose first argument is `'unknown cipher'` a formatted
`ValueError` is re-raised; for any other caught `ValueError` the `if` body
is skipped and the function falls off the end, returning Python `None`
(modelled as `.ok none`).  The returned pair carries the instance state,
which the method never mutates. -/
def M2CryptoDriver.cryptS (E : BlockFun) (d : M2CryptoDriver) (chunk : Bytes) :
    Except PyErr (Option Bytes) × M2CryptoDriver :=
  (match m2CipherEncrypt E d.protocol d.key_value d.iv chunk with
   | .ok v => .ok (some v)
   | .error err =>
       if M2Err.arg0 err = "unknown cipher" then
         .error (.valueError (M2Err.arg0 err ++ ":" ++ M2Err.arg1 err ++
           " please select avaliable protocol type"))
       else .ok none
   , d)

/-- `M2CryptoDriver.decrypt`: identical shape to `crypt` with the cipher
in decryption mode (`op=0`). -/
def M2CryptoDriver.decryptS (D : BlockFun) (d : M2CryptoDriver) (chunk : Bytes) :
    Except PyErr (Option Bytes) × M2CryptoDriver :=
  (match m2CipherDecrypt D d.protocol d.key_value d.iv chunk with
   | .ok v => .ok (some v)
   | .error err =>
       if M2Err.arg0 err = "unknown cipher" then
         .error (.valueError (M2Err.arg0 err ++ ":" ++ M2Err.arg1 err ++
           " please select avaliable protocol type"))
       else .ok none
   , d)

/-- `CryptoDriver.crypted_len` as inherited by `M2CryptoDriver`:
`res = "a" * original_len; return len(str(self.crypt(res)))`.  The filler
byte is `"a"` (97).  `str` is the identity on a Python 2 byte string; were
`crypt` to return `None` (its swallowed-error path), `str(None)` is the
4-character string `"None"`. -/
def M2CryptoDriver.crypted_lenS (E : BlockFun) (d : M2CryptoDriver) (original_len : Nat) :
    Except PyErr Nat × M2CryptoDriver :=
  let r := d.cryptS E (List.replicate original_len 97)
  (match r.1 with
   | .error e => .error e
   | .ok none => .ok 4
   | .ok (some v) => .ok v.length
   , r.2)

/-- State of a `FakeDriver` instance: only `CryptoDriver.__init__` runs,
so `protocol` is `conf.get("crypto_protocol")` with no default. -/
structure FakeDriver where
  conf : Conf
  protocol : Option String
  keystore : String → Bytes
  key_value : Bytes

/-- Construction of `FakeDriver` (delegates to `CryptoDriver.__init__`). -/
def FakeDriver.init (ks : String → Bytes) (conf : Conf) : FakeDriver :=
  { conf := conf, protocol := confGet conf "crypto_protocol",
    keystore := ks, key_value := [] }

/-- `FakeDriver.crypt`: returns the original string. -/
def FakeDriver.crypt (d : FakeDriver) (chunk_string : Bytes) : Bytes :=
  chunk_string

/-- `FakeDriver.decrypt`: returns the original string. -/
def FakeDriver.decrypt (d : FakeDriver) (chunk_string : Bytes) : Bytes :=
  chunk_string

/-- `CryptoDriver.get_key_value` as inherited by `FakeDriver`. -/
def FakeDriver.get_key_value (d : FakeDriver) (key_id : String) :
    Option Bytes × FakeDriver :=
  (none, { d with key_value := d.keystore key_id })

/-- `CryptoDriver.crypted_len` as inherited by `FakeDriver`:
`len(str(self.crypt("a" * original_len)))`. -/
def FakeDriver.crypted_len (d : FakeDriver) (original_len : Nat) : Nat :=
  (d.crypt (List.replicate original_len 97)).length

/-- Result classifier: the call returned a byte string. -/
def isBytes : Except PyErr (Option Bytes) → Bool
  | .ok (some _) => true
  | _ => false

/-- Result classifier: the call returned Python `None`. -/
def isPyNone : Except PyErr (Option Bytes) → Bool
  | .ok none => true
  | _ => false

/-- Result classifier: the call raised an exception. -/
def isRaise : Except PyErr (Option Bytes) → Bool
  | .error _ => true
  | _ => false

/-- Construction succeeded. -/
def initOk : Except PyErr M2CryptoDriver → Bool
  | .ok _ => true
  | .error _ => false

/-- XOR of all key bytes: key schedule of the demonstration block cipher. -/
def keyMask (k : Bytes) : Nat := k.foldl (fun a v => a ^^^ v) 0

/-- A concrete self-inverse block permutation used to instantiate the
abstract AES parameter in witnesses: XOR every byte with the key mask. -/
def toyBlock : BlockFun := fun k b => b.map (fun x => x ^^^ keyMask k)

/-- A concrete key store for witnesses: two key ids with distinct
one-byte key material. -/
def ksDemo : String → Bytes := fun key_id =>
  if key_id == "k1" then [0] else if key_id == "k2" then [1] else []

/-- A concrete configuration with `crypto_protocol` absent. -/
def confDemo : Conf := []

/-- The driver instance `M2CryptoDriver.init ksDemo confDemo` constructs. -/
def dDemo : M2CryptoDriver :=
  { conf := confDemo, protocol := "aes_128_cbc", keystore := ksDemo,
    iv := ivBytes, key_value := [] }


lemma length_xorB (a b : Bytes) : (xorB a b).length = min a.length b.length :=
  List.length_zipWith _ _ _

lemma xorB_xorB (a : Bytes) : ∀ b : Bytes, a.length = b.length → xorB a (xorB a b) = b := by
  induction a with
  | nil =>
      intro b h
      cases b with
      | nil => rfl
      | cons y ys => simp at h
  | cons x xs ih =>
      intro b h
      cases b with
      | nil => simp at h
      | cons y ys =>
          simp only [List.length_cons] at h
          have htail : xorB xs (xorB xs ys) = ys := ih ys (by omega)
          show (x ^^^ (x ^^^ y)) :: xorB xs (xorB xs ys) = y :: ys
          rw [htail, ← Nat.xor_assoc, Nat.xor_self, Nat.zero_xor]

lemma getLast?_append_replicate (p : Bytes) (m k : Nat) (h : 1 ≤ k) :
    (p ++ List.replicate k m).getLast? = some m := by
  obtain ⟨k0, rfl⟩ : ∃ k0, k = k0 + 1 := ⟨k - 1, by omega⟩
  rw [List.replicate_succ', ← List.append_assoc]
  exact List.getLast?_concat _

lemma pkcs7unpad_pkcs7pad (p : Bytes) : pkcs7unpad (pkcs7pad p) = some p := by
  have hlt : p.length % 16 < 16 := Nat.mod_lt _ (by decide)
  set m := 16 - p.length % 16 with hm
  have h1 : 1 ≤ m := by omega
  have hlen : (pkcs7pad p).length = p.length + m := by simp [pkcs7pad]
  have hsub : (pkcs7pad p).length - m = p.length := by omega
  have hdrop : (pkcs7pad p).drop ((pkcs7pad p).length - m) = List.replicate m m := by
    rw [hsub]
    show (p ++ List.replicate m m).drop p.length = List.replicate m m
    exact List.drop_left _ _
  have htake : (pkcs7pad p).take ((pkcs7pad p).length - m) = p := by
    rw [hsub]
    show (p ++ List.replicate m m).take p.length = p
    exact List.take_left _ _
  have hred : pkcs7unpad (pkcs7pad p) =
      if 1 ≤ m ∧ m ≤ 16 ∧ m ≤ (pkcs7pad p).length ∧
          (((pkcs7pad p).drop ((pkcs7pad p).length - m)).all (fun x => x == m) = true) then
        some ((pkcs7pad p).take ((pkcs7pad p).length - m))
      else none := by
    unfold pkcs7unpad
    rw [show (pkcs7pad p).getLast? = some m from getLast?_append_replicate _ _ _ h1]
  rw [hred, if_pos ?hc]
  · rw [htake]
  case hc =>
    refine ⟨h1, by omega, by omega, ?_⟩
    rw [hdrop]
    simp [List.all_eq_true, List.mem_replicate]

lemma chunk16Go_nil (f : Nat) : chunk16Go f [] = [] := by cases f <;> rfl

lemma chunk16Go_step (f : Nat) (l : Bytes) (h : l ≠ []) :
    chunk16Go (f + 1) l = l.take 16 :: chunk16Go f (l.drop 16) := by
  cases l with
  | nil => exact absurd rfl h
  | cons x xs => rfl

lemma flatten_chunk16Go : ∀ (f : Nat) (l : Bytes), l.length ≤ f → (chunk16Go f l).flatten = l := by
  intro f
  induction f with
  | zero =>
      intro l h
      have : l = [] := List.eq_nil_of_length_eq_zero (by omega)
      subst this
      simp [chunk16Go_nil]
  | succ f ih =>
      intro l h
      cases l with
      | nil => simp [chunk16Go_nil]
      | cons x xs =>
          rw [chunk16Go_step _ _ (by simp)]
          simp only [List.flatten_cons]
          have hdroplen : ((x :: xs).drop 16).length ≤ f := by
            simp only [List.length_cons] at h
            simp only [List.length_drop, List.length_cons]
            omega
          rw [ih _ hdroplen]
          exact List.take_append_drop _ _

lemma chunk16Go_blocks : ∀ (f : Nat) (l : Bytes), l.length ≤ f → l.length % 16 = 0 →
    ∀ b ∈ chunk16Go f l, b.length = 16 := by
  intro f
  induction f with
  | zero =>
      intro l h _ b hb
      have : l = [] := List.eq_nil_of_length_eq_zero (by omega)
      subst this
      simp [chunk16Go_nil] at hb
  | succ f ih =>
      intro l h hmod b hb
      cases l with
      | nil => simp [chunk16Go_nil] at hb
      | cons x xs =>
          rw [chunk16Go_step _ _ (by simp)] at hb
          have hlen : (x :: xs).length = xs.length + 1 := by simp
          have hge : 16 ≤ xs.length + 1 := by
            rw [hlen] at hmod
            omega
          rcases List.mem_cons.mp hb with rfl | hb
          · simp [List.length_take]
            omega
          · refine ih _ ?_ ?_ b hb
            · simp at h ⊢
              omega
            · simp at hmod ⊢
              omega

lemma chunk16Go_flatten_blocks : ∀ (bs : List Bytes) (f : Nat),
    (∀ b ∈ bs, b.length = 16) → bs.flatten.length ≤ f → chunk16Go f bs.flatten = bs := by
  intro bs
  induction bs with
  | nil =>
      intro f _ _
      simp [chunk16Go_nil]
  | cons b bs ih =>
      intro f hb hf
      have hb16 : b.length = 16 := hb b (by simp)
      simp only [List.flatten_cons] at hf ⊢
      have hflen : (b ++ bs.flatten).length = 16 + bs.flatten.length := by simp [hb16]
      obtain ⟨f0, rfl⟩ : ∃ f0, f = f0 + 1 := ⟨f - 1, by omega⟩
      have hne : (b ++ bs.flatten) ≠ [] := by
        intro hcon
        have := congrArg List.length hcon
        simp [hb16] at this
      rw [chunk16Go_step _ _ hne]
      have htake : (b ++ bs.flatten).take 16 = b := by
        rw [← hb16]
        exact List.take_left _ _
      have hdrop : (b ++ bs.flatten).drop 16 = bs.flatten := by
        rw [← hb16]
        exact List.drop_left _ _
      rw [htake, hdrop, ih f0 (fun c hc => hb c (by simp [hc])) (by omega)]

lemma length_flatten_16 : ∀ (bs : List Bytes), (∀ b ∈ bs, b.length = 16) →
    bs.flatten.length = 16 * bs.length := by
  intro bs
  induction bs with
  | nil => intro _; simp
  | cons b bs ih =>
      intro hb
      simp only [List.flatten_cons, List.length_append, List.length_cons]
      rw [hb b (by simp), ih (fun c hc => hb c (by simp [hc]))]
      ring

lemma length_cbcEncBlocks (E : BlockFun) (key : Bytes) :
    ∀ (bs : List Bytes) (prev : Bytes), (cbcEncBlocks E key prev bs).length = bs.length := by
  intro bs
  induction bs with
  | nil => intro prev; rfl
  | cons b bs ih => intro prev; simp [cbcEncBlocks, ih]

lemma cbcEncBlocks_block_length (E : BlockFun) (key : Bytes)
    (hE : ∀ k b, b.length = 16 → (E k b).length = 16) :
    ∀ (bs : List Bytes) (prev : Bytes), prev.length = 16 → (∀ b ∈ bs, b.length = 16) →
    ∀ c ∈ cbcEncBlocks E key prev bs, c.length = 16 := by
  intro bs
  induction bs with
  | nil =>
      intro prev _ _ c hc
      simp [cbcEncBlocks] at hc
  | cons b bs ih =>
      intro prev hprev hb c hc
      have hxb : (xorB prev b).length = 16 := by
        rw [length_xorB, hprev, hb b (by simp)]
        rfl
      have hEb : (E key (xorB prev b)).length = 16 := hE _ _ hxb
      simp only [cbcEncBlocks] at hc
      rcases List.mem_cons.mp hc with rfl | hc
      · exact hEb
      · exact ih _ hEb (fun x hx => hb x (by simp [hx])) c hc

lemma cbcDec_cbcEnc (E D : BlockFun) (key : Bytes)
    (hinv : ∀ k b, b.length = 16 → D k (E k b) = b)
    (hE : ∀ k b, b.length = 16 → (E k b).length = 16) :
    ∀ (bs : List Bytes) (prev : Bytes), prev.length = 16 → (∀ b ∈ bs, b.length = 16) →
    cbcDecBlocks D key prev (cbcEncBlocks E key prev bs) = bs := by
  intro bs
  induction bs with
  | nil => intro prev _ _; rfl
  | cons b bs ih =>
      intro prev hprev hb
      have hb16 : b.length = 16 := hb b (by simp)
      have hxb : (xorB prev b).length = 16 := by
        rw [length_xorB, hprev, hb16]
        rfl
      simp only [cbcEncBlocks, cbcDecBlocks]
      rw [hinv key _ hxb, xorB_xorB prev b (by rw [hprev, hb16]),
        ih _ (hE _ _ hxb) (fun x hx => hb x (by simp [hx]))]

lemma pkcs7pad_mod (p : Bytes) : (pkcs7pad p).length % 16 = 0 := by
  have hlt : p.length % 16 < 16 := Nat.mod_lt _ (by decide)
  simp [pkcs7pad]
  omega

lemma m2cbcDecrypt_m2cbcEncrypt (E D : BlockFun) (key iv p : Bytes)
    (hinv : ∀ k b, b.length = 16 → D k (E k b) = b)
    (hE : ∀ k b, b.length = 16 → (E k b).length = 16)
    (hiv : iv.length = 16) :
    m2cbcDecrypt D key iv (m2cbcEncrypt E key iv p) = some p := by
  have hblocks : ∀ b ∈ chunk16 (pkcs7pad p), b.length = 16 :=
    chunk16Go_blocks _ _ le_rfl (pkcs7pad_mod p)
  have henc : ∀ c ∈ cbcEncBlocks E key iv (chunk16 (pkcs7pad p)), c.length = 16 :=
    cbcEncBlocks_block_length E key hE _ _ hiv hblocks
  have hctlen : (m2cbcEncrypt E key iv p).length =
      16 * (chunk16 (pkcs7pad p)).length := by
    unfold m2cbcEncrypt
    rw [length_flatten_16 _ henc, length_cbcEncBlocks]
  unfold m2cbcDecrypt
  rw [if_pos (by rw [hctlen]; omega)]
  show pkcs7unpad (cbcDecBlocks D key iv (chunk16 (m2cbcEncrypt E key iv p))).flatten = some p
  have hchunk : chunk16 (m2cbcEncrypt E key iv p) =
      cbcEncBlocks E key iv (chunk16 (pkcs7pad p)) := by
    unfold m2cbcEncrypt chunk16
    exact chunk16Go_flatten_blocks _ _ henc le_rfl
  rw [hchunk, cbcDec_cbcEnc E D key hinv hE _ _ hiv hblocks]
  rw [show (chunk16 (pkcs7pad p)).flatten = pkcs7pad p from flatten_chunk16Go _ _ le_rfl]
  exact pkcs7unpad_pkcs7pad p

lemma length_m2cbcEncrypt (E : BlockFun) (key iv p : Bytes)
    (hE : ∀ k b, b.length = 16 → (E k b).length = 16)
    (hiv : iv.length = 16) :
    (m2cbcEncrypt E key iv p).length = (pkcs7pad p).length := by
  have hblocks : ∀ b ∈ chunk16 (pkcs7pad p), b.length = 16 :=
    chunk16Go_blocks _ _ le_rfl (pkcs7pad_mod p)
  have henc : ∀ c ∈ cbcEncBlocks E key iv (chunk16 (pkcs7pad p)), c.length = 16 :=
    cbcEncBlocks_block_length E key hE _ _ hiv hblocks
  unfold m2cbcEncrypt
  rw [length_flatten_16 _ henc, length_cbcEncBlocks, ← length_flatten_16 _ hblocks]
  rw [show (chunk16 (pkcs7pad p)).flatten = pkcs7pad p from flatten_chunk16Go _ _ le_rfl]

lemma length_pkcs7pad (p : Bytes) : (pkcs7pad p).length = p.length + (16 - p.length % 16) := by
  simp [pkcs7pad]

lemma ivBytes_length : ivBytes.length = 16 := by decide


lemma init_ok_fields {ks : String → Bytes} {conf : Conf} {d : M2CryptoDriver}
    (h : M2CryptoDriver.init ks conf = .ok d) :
    d.conf = conf ∧ d.protocol = "aes_128_cbc" ∧ d.keystore = ks ∧
    d.iv = ivBytes ∧ d.key_value = [] := by
  simp only [M2CryptoDriver.init] at h
  split at h
  · exact absurd h (by simp)
  · rename_i hne
    cases h
    refine ⟨rfl, ?_, rfl, rfl, rfl⟩
    exact not_not.mp hne

lemma cryptS_eq (E : BlockFun) (d : M2CryptoDriver) (chunk : Bytes)
    (hp : d.protocol = "aes_128_cbc") :
    d.cryptS E chunk = (.ok (some (m2cbcEncrypt E d.key_value d.iv chunk)), d) := by
  simp [M2CryptoDriver.cryptS, m2CipherEncrypt, hp]

lemma decryptS_eq_some (D : BlockFun) (d : M2CryptoDriver) (chunk v : Bytes)
    (hp : d.protocol = "aes_128_cbc")
    (hdec : m2cbcDecrypt D d.key_value d.iv chunk = some v) :
    d.decryptS D chunk = (.ok (some v), d) := by
  simp [M2CryptoDriver.decryptS, m2CipherDecrypt, hp, hdec]

lemma decryptS_eq_none (D : BlockFun) (d : M2CryptoDriver) (chunk : Bytes)
    (hp : d.protocol = "aes_128_cbc")
    (hdec : m2cbcDecrypt D d.key_value d.iv chunk = none) :
    d.decryptS D chunk = (.ok none, d) := by
  simp [M2CryptoDriver.decryptS, m2CipherDecrypt, hp, hdec, M2Err.arg0]

lemma decryptS_no_raise (D : BlockFun) (d : M2CryptoDriver) (chunk : Bytes)
    (hp : d.protocol = "aes_128_cbc") :
    isRaise ((d.decryptS D chunk).1) = false := by
  cases hdec : m2cbcDecrypt D d.key_value d.iv chunk with
  | none =>
      rw [decryptS_eq_none D d chunk hp hdec]
      rfl
  | some v =>
      rw [decryptS_eq_some D d chunk v hp hdec]
      rfl

lemma toyBlock_invol (k b : Bytes) : toyBlock k (toyBlock k b) = b := by
  unfold toyBlock
  rw [List.map_map]
  have hcomp : ((fun x => x ^^^ keyMask k) ∘ fun x => x ^^^ keyMask k) = id := by
    funext x
    exact Nat.xor_cancel_right _ _
  rw [hcomp, List.map_id]

lemma toy_inv : ∀ k b : Bytes, b.length = 16 → toyBlock k (toyBlock k b) = b :=
  fun k b _ => toyBlock_invol k b

lemma toy_len : ∀ k b : Bytes, b.length = 16 → (toyBlock k b).length = 16 := by
  intro k b h
  simp [toyBlock, h]

/-- Binding a sequence of key ids in order (repeated `get_key_value` calls). -/
def bindAll (d : M2CryptoDriver) (ids : List String) : M2CryptoDriver :=
  ids.foldl (fun s i => (s.get_key_value i).2) d

lemma bindAll_keystore : ∀ (ids : List String) (d : M2CryptoDriver),
    (bindAll d ids).keystore = d.keystore := by
  intro ids
  induction ids with
  | nil => intro d; rfl
  | cons i ids ih => intro d; exact ih _


/-- C1: for the block-cipher driver with any bound key, for every plaintext
byte sequence `p`, decrypting the result of encrypting `p` under the same
bound key and configuration returns exactly `p`, for every block
permutation pair satisfying the block-cipher laws (inverse on 16-byte
blocks, length preserving). -/
theorem c1_round_trip (E D : BlockFun) (ks : String → Bytes) (conf : Conf)
    (d : M2CryptoDriver) (key_id : String) (p : Bytes)
    (hinv : ∀ k b, b.length = 16 → D k (E k b) = b)
    (hE : ∀ k b, b.length = 16 → (E k b).length = 16)
    (hd : M2CryptoDriver.init ks conf = .ok d) :
    ∃ c : Bytes,
      (((d.get_key_value key_id).2).cryptS E p).1 = .ok (some c) ∧
      (((d.get_key_value key_id).2).decryptS D c).1 = .ok (some p) := by
  obtain ⟨-, hproto, -, hiv, -⟩ := init_ok_fields hd
  have hp1 : ((d.get_key_value key_id).2).protocol = "aes_128_cbc" := hproto
  have hiv16 : ((d.get_key_value key_id).2).iv.length = 16 := by
    show d.iv.length = 16
    rw [hiv]
    exact ivBytes_length
  refine ⟨m2cbcEncrypt E ((d.get_key_value key_id).2).key_value
      ((d.get_key_value key_id).2).iv p, ?_, ?_⟩
  · rw [cryptS_eq E _ p hp1]
  · rw [decryptS_eq_some D _ _ p hp1
      (m2cbcDecrypt_m2cbcEncrypt E D _ _ p hinv hE hiv16)]

/-- Witness for C1: a concrete round trip through the driver at the
demonstration block permutation, key store and configuration. -/
theorem c1_round_trip_witness :
    ∃ c : Bytes,
      (((dDemo.get_key_value "k1").2).cryptS toyBlock (strBytes "hello")).1 =
        .ok (some c) ∧
      (((dDemo.get_key_value "k1").2).decryptS toyBlock c).1 =
        .ok (some (strBytes "hello")) :=
  c1_round_trip toyBlock toyBlock ksDemo confDemo dDemo "k1" (strBytes "hello")
    toy_inv toy_len rfl


/-- C2 counterexample: a freshly constructed block-cipher driver (no
bind-key call) has the empty default key material, and calling encrypt on
it succeeds and returns bytes — it raises nothing, so in particular no
`KeyNotBoundError` (no such error exists in the code). -/
theorem c2_counterexample :
    M2CryptoDriver.init ksDemo confDemo = .ok dDemo ∧
    dDemo.key_value = [] ∧
    isBytes ((dDemo.cryptS toyBlock (strBytes "hi")).1) = true :=
  ⟨rfl, rfl, by decide⟩

/-- C2 (amended): calling encrypt or decrypt on a freshly constructed
block-cipher driver before any bind-key call does not fail: the driver has
no key-bound check, silently proceeds with the empty default key material
(`key_value = ""`), encrypt returns bytes, and decrypt never raises. -/
theorem c2_unbound_proceeds (E D : BlockFun) (ks : String → Bytes) (conf : Conf)
    (d : M2CryptoDriver) (p c : Bytes)
    (hd : M2CryptoDriver.init ks conf = .ok d) :
    d.key_value = [] ∧
    isBytes ((d.cryptS E p).1) = true ∧
    isRaise ((d.decryptS D c).1) = false := by
  obtain ⟨-, hproto, -, -, hkey⟩ := init_ok_fields hd
  refine ⟨hkey, ?_, decryptS_no_raise D d c hproto⟩
  rw [cryptS_eq E d p hproto]
  rfl

/-- Witness for C2 (amended) at the demonstration instantiation. -/
theorem c2_unbound_proceeds_witness :
    dDemo.key_value = [] ∧
    isBytes ((dDemo.cryptS toyBlock (strBytes "hi")).1) = true ∧
    isRaise ((dDemo.decryptS toyBlock (strBytes "x")).1) = false :=
  c2_unbound_proceeds toyBlock toyBlock ksDemo confDemo dDemo (strBytes "hi")
    (strBytes "x") rfl

/-- C3: the ciphertext length equals the estimator's answer on the
plaintext length, for every plaintext and bound key, for every
length-preserving block permutation: the estimator encrypts a placeholder
buffer of 97-bytes (`"a"`) of the requested length and measures it. -/
theorem c3_length_estimator (E : BlockFun) (ks : String → Bytes) (conf : Conf)
    (d : M2CryptoDriver) (key_id : String) (p : Bytes)
    (hE : ∀ k b, b.length = 16 → (E k b).length = 16)
    (hd : M2CryptoDriver.init ks conf = .ok d) :
    ∃ c : Bytes,
      (((d.get_key_value key_id).2).cryptS E p).1 = .ok (some c) ∧
      (((d.get_key_value key_id).2).crypted_lenS E p.length).1 = .ok c.length := by
  obtain ⟨-, hproto, -, hiv, -⟩ := init_ok_fields hd
  have hp1 : ((d.get_key_value key_id).2).protocol = "aes_128_cbc" := hproto
  have hiv16 : ((d.get_key_value key_id).2).iv.length = 16 := by
    show d.iv.length = 16
    rw [hiv]
    exact ivBytes_length
  refine ⟨m2cbcEncrypt E ((d.get_key_value key_id).2).key_value
      ((d.get_key_value key_id).2).iv p, by rw [cryptS_eq E _ p hp1], ?_⟩
  have hc : ((d.get_key_value key_id).2).cryptS E (List.replicate p.length 97) =
      (.ok (some (m2cbcEncrypt E ((d.get_key_value key_id).2).key_value
        ((d.get_key_value key_id).2).iv (List.replicate p.length 97))),
        (d.get_key_value key_id).2) :=
    cryptS_eq E _ _ hp1
  simp only [M2CryptoDriver.crypted_lenS, hc]
  have hsame : (m2cbcEncrypt E ((d.get_key_value key_id).2).key_value
      ((d.get_key_value key_id).2).iv (List.replicate p.length 97)).length =
      (m2cbcEncrypt E ((d.get_key_value key_id).2).key_value
        ((d.get_key_value key_id).2).iv p).length := by
    rw [length_m2cbcEncrypt E _ _ _ hE hiv16, length_m2cbcEncrypt E _ _ _ hE hiv16,
      length_pkcs7pad, length_pkcs7pad, List.length_replicate]
  rw [hsame]

/-- Witness for C3 at the demonstration instantiation. -/
theorem c3_length_estimator_witness :
    ∃ c : Bytes,
      (((dDemo.get_key_value "k1").2).cryptS toyBlock (strBytes "hello")).1 =
        .ok (some c) ∧
      (((dDemo.get_key_value "k1").2).crypted_lenS toyBlock
          (strBytes "hello").length).1 = .ok c.length :=
  c3_length_estimator toyBlock ksDemo confDemo dDemo "k1" (strBytes "hello")
    toy_len rfl

/-- C4 counterexample: the accepted protocol string in the code is
`"aes_128_cbc"` (underscores), which differs from the claimed accepted
value `"aes-128-cbc"` (hyphens), yet construction with it succeeds — so
it is a value other than `"aes-128-cbc"` that does not fail. -/
theorem c4_counterexample :
    "aes_128_cbc" ≠ "aes-128-cbc" ∧
    initOk (M2CryptoDriver.init ksDemo [("crypto_protocol", "aes_128_cbc")]) = true :=
  ⟨by decide, by decide⟩

/-- C4 (amended): constructing the block-cipher driver with a configured
`crypto_protocol` equal to any value other than `"aes_128_cbc"` fails with
the unsupported-protocol error `NotImplementedError("Incorrect protocol")`
at construction time, while construction with the protocol key absent
succeeds using the default `"aes_128_cbc"`. -/
theorem c4_protocol_check (ks : String → Bytes) (conf : Conf) :
    (∀ v, confGet conf "crypto_protocol" = some v → v ≠ "aes_128_cbc" →
      M2CryptoDriver.init ks conf =
        .error (.notImplementedError "Incorrect protocol")) ∧
    (confGet conf "crypto_protocol" = none →
      ∃ d, M2CryptoDriver.init ks conf = .ok d ∧ d.protocol = "aes_128_cbc") := by
  constructor
  · intro v hv hne
    have hgetd : confGetD conf "crypto_protocol" "aes_128_cbc" = v := by
      rw [confGetD, hv]
      rfl
    simp only [M2CryptoDriver.init, hgetd]
    rw [if_pos hne]
  · intro hnone
    have hgetd : confGetD conf "crypto_protocol" "aes_128_cbc" = "aes_128_cbc" := by
      rw [confGetD, hnone]
      rfl
    refine ⟨⟨conf, "aes_128_cbc", ks, ivBytes, []⟩, ?_, rfl⟩
    simp only [M2CryptoDriver.init, hgetd]
    rw [if_neg (by simp)]

/-- Witness for C4 (amended): `"rot13"` is rejected, an absent protocol
key succeeds with the default. -/
theorem c4_protocol_check_witness :
    M2CryptoDriver.init ksDemo [("crypto_protocol", "rot13")] =
      .error (.notImplementedError "Incorrect protocol") ∧
    (∃ d, M2CryptoDriver.init ksDemo confDemo = .ok d ∧
      d.protocol = "aes_128_cbc") :=
  ⟨(c4_protocol_check ksDemo [("crypto_protocol", "rot13")]).1 "rot13" rfl
      (by decide),
    (c4_protocol_check ksDemo confDemo).2 rfl⟩

/-- C5: evaluation at the failing input — decrypting the one-byte
ciphertext `"x"` on a constructed driver makes the modelled cipher
finalisation fail (`EVPError`, a `ValueError` subclass, first argument
`"bad decrypt"`), which the `except ValueError` clause catches; since the
argument is not `'unknown cipher'` nothing is re-raised and the function
falls through, returning Python `None` instead of raising — the error is
swallowed, contradicting the claim. -/
theorem c5_swallowed_error :
    M2CryptoDriver.init ksDemo confDemo = .ok dDemo ∧
    (dDemo.decryptS toyBlock (strBytes "x")).1 = .ok none ∧
    isRaise ((dDemo.decryptS toyBlock (strBytes "x")).1) = false :=
  ⟨rfl, rfl, rfl⟩

/-- C6: with a bound key, the driver state after encrypt equals the state
before it, so encrypting the same plaintext in two consecutive calls
yields identical ciphertext; the IV is the fixed constant
`"3141527182810345"` regardless of configuration, key or plaintext. -/
theorem c6_deterministic (E : BlockFun) (ks : String → Bytes) (conf : Conf)
    (d : M2CryptoDriver) (key_id : String) (p : Bytes)
    (hd : M2CryptoDriver.init ks conf = .ok d) :
    ((d.get_key_value key_id).2).iv = strBytes "3141527182810345" ∧
    (((d.get_key_value key_id).2).cryptS E p).2 = (d.get_key_value key_id).2 ∧
    (((d.get_key_value key_id).2).cryptS E p).1 =
      (((((d.get_key_value key_id).2).cryptS E p).2).cryptS E p).1 := by
  obtain ⟨-, -, -, hiv, -⟩ := init_ok_fields hd
  exact ⟨hiv, rfl, rfl⟩

/-- Witness for C6 at the demonstration instantiation. -/
theorem c6_deterministic_witness :
    ((dDemo.get_key_value "k1").2).iv = strBytes "3141527182810345" ∧
    (((dDemo.get_key_value "k1").2).cryptS toyBlock (strBytes "hi")).2 =
      (dDemo.get_key_value "k1").2 ∧
    (((dDemo.get_key_value "k1").2).cryptS toyBlock (strBytes "hi")).1 =
      (((((dDemo.get_key_value "k1").2).cryptS toyBlock (strBytes "hi")).2).cryptS
        toyBlock (strBytes "hi")).1 :=
  c6_deterministic toyBlock ksDemo confDemo dDemo "k1" (strBytes "hi") rfl

/-- C7 counterexample: bind `"k1"`, encrypt `"hi"`, bind `"k2"` (different
key material); decrypting the earlier ciphertext under the wrong key makes
the modelled padding check fail, and the swallowed cipher error makes
decrypt return Python `None` — not bytes at all, refuting "yields
different bytes rather than raising an error". -/
theorem c7_counterexample :
    ksDemo "k1" ≠ ksDemo "k2" ∧
    (((dDemo.get_key_value "k1").2).cryptS toyBlock (strBytes "hi")).1 =
      .ok (some (m2cbcEncrypt toyBlock (ksDemo "k1") ivBytes (strBytes "hi"))) ∧
    ((((dDemo.get_key_value "k1").2).get_key_value "k2").2).decryptS toyBlock
        (m2cbcEncrypt toyBlock (ksDemo "k1") ivBytes (strBytes "hi")) =
      (.ok none, (((dDemo.get_key_value "k1").2).get_key_value "k2").2) ∧
    ((Except.ok none : Except PyErr (Option Bytes)) ≠ .ok (some (strBytes "hi"))) :=
  ⟨by decide, rfl, rfl, by simp⟩

/-- C7 (amended): decrypting under a key bound after encryption never
raises an uncaught error, but it need not yield bytes: when the wrong key
corrupts the padding, the swallowed cipher failure makes decrypt return
Python `None` — as in the concrete bind-encrypt-rebind-decrypt scenario,
whose result is `None` and in particular is not the original plaintext. -/
theorem c7_wrong_key :
    (∀ (D : BlockFun) (ks : String → Bytes) (conf : Conf) (d : M2CryptoDriver)
        (c : Bytes) (key_id : String),
      M2CryptoDriver.init ks conf = .ok d →
      isRaise ((((d.get_key_value key_id).2).decryptS D c).1) = false) ∧
    ((((dDemo.get_key_value "k1").2).get_key_value "k2").2).decryptS toyBlock
        (m2cbcEncrypt toyBlock (ksDemo "k1") ivBytes (strBytes "hi")) =
      (.ok none, (((dDemo.get_key_value "k1").2).get_key_value "k2").2) := by
  constructor
  · intro D ks conf d c key_id hd
    obtain ⟨-, hproto, -, -, -⟩ := init_ok_fields hd
    exact decryptS_no_raise D _ c hproto
  · rfl

/-- Witness for C7 (amended): the universally quantified part applied at
the demonstration instantiation. -/
theorem c7_wrong_key_witness :
    isRaise ((((dDemo.get_key_value "k1").2).decryptS toyBlock [1, 2, 3]).1) =
      false :=
  c7_wrong_key.1 toyBlock ksDemo confDemo dDemo [1, 2, 3] "k1" rfl

/-- C8: for the passthrough driver, encrypt and decrypt are the identity
on every byte sequence, and the length estimator returns its input
unchanged for every length. -/
theorem c8_passthrough (ks : String → Bytes) (conf : Conf) (p : Bytes) (n : Nat) :
    (FakeDriver.init ks conf).crypt p = p ∧
    (FakeDriver.init ks conf).decrypt p = p ∧
    (FakeDriver.init ks conf).crypted_len n = n := by
  refine ⟨rfl, rfl, ?_⟩
  simp [FakeDriver.crypted_len, FakeDriver.crypt]

/-- C9: `get_key_value` sets the active key material to exactly the bytes
the key store returns for the id, returns no value (Python `None`),
leaves every other field unchanged, and unconditionally overwrites any
previously bound key: after any sequence of binds the active key is the
one from the last call. -/
theorem c9_bind_key (d : M2CryptoDriver) (key_id : String) (ids : List String) :
    (d.get_key_value key_id).1 = none ∧
    ((d.get_key_value key_id).2).key_value = d.keystore key_id ∧
    ((d.get_key_value key_id).2).conf = d.conf ∧
    ((d.get_key_value key_id).2).protocol = d.protocol ∧
    ((d.get_key_value key_id).2).keystore = d.keystore ∧
    ((d.get_key_value key_id).2).iv = d.iv ∧
    (bindAll d (ids ++ [key_id])).key_value = d.keystore key_id := by
  refine ⟨rfl, rfl, rfl, rfl, rfl, rfl, ?_⟩
  unfold bindAll
  rw [List.foldl_append]
  show ((bindAll d ids).get_key_value key_id).2.key_value = d.keystore key_id
  rw [show ((bindAll d ids).get_key_value key_id).2.key_value =
    (bindAll d ids).keystore key_id from rfl, bindAll_keystore]

/-- C10: encrypt, decrypt and the length estimator return the instance
state unchanged (their bodies assign no field); `get_key_value` is the
only mutating operation and it changes only `key_value`. -/
theorem c10_frame (E D : BlockFun) (d : M2CryptoDriver) (p c : Bytes) (n : Nat)
    (key_id : String) :
    (d.cryptS E p).2 = d ∧
    (d.decryptS D c).2 = d ∧
    (d.crypted_lenS E n).2 = d ∧
    (d.get_key_value key_id).2 = { d with key_value := d.keystore key_id } :=
  ⟨rfl, rfl, rfl, rfl⟩

end SwiftEncrypt
